import Mathlib

/-!
Shallow embedding of the ink-capture/rendering core of iNotePro
(`src/components/DrawingCanvas.tsx`, types from `src/unnamed/part_000`).

Numbers (coordinates, widths, pressures, opacities) are modelled as `ℚ`;
colors and data URLs as `String`.  The 2D canvas context is modelled as a
trace of canvas operations (`CanvasOp`) together with an explicit context
state (`CtxState`); a painted segment's effective parameters are the
context state in force when its `lineTo` is issued.  The React component's
pointer handlers are modelled as a step function on an explicit state
(`CanvasState`), with the externally supplied props (`tool`, `color`,
`strokeWidth`, `isDrawingEnabled`) passed per event so that they may change
between events, as props can.  The machine models the mounted surface
(`canvasRef.current` non-null); the unmounted case is modelled separately
for the imperative handle (`getDataURL`).
-/

/-- `ToolType` from `types.ts`: `'pen' | 'pencil' | 'highlighter' | 'eraser'`. -/
inductive ToolType
  | pen
  | pencil
  | highlighter
  | eraser
deriving DecidableEq

/-- One captured point: `{ x: number; y: number; pressure: number }`. -/
structure Point where
  x : ℚ
  y : ℚ
  pressure : ℚ
deriving DecidableEq

/-- `DrawingStroke` from `types.ts`. -/
structure DrawingStroke where
  points : List Point
  color : String
  width : ℚ
  tool : ToolType
deriving DecidableEq

/-- Canvas compositing modes used by the component:
`'source-over'` (normal) and `'destination-out'` (destructive erase). -/
inductive CompOp
  | sourceOver
  | destinationOut
deriving DecidableEq

/-- Canvas-context operations the component issues.  `setLineCapRound` and
`setLineJoinRound` record the constant `'round'` cap/join assignments. -/
inductive CanvasOp
  | clearRect
  | beginPath
  | setStrokeStyle (c : String)
  | setAlpha (a : ℚ)
  | setComp (m : CompOp)
  | setLineWidth (w : ℚ)
  | setLineCapRound
  | setLineJoinRound
  | moveTo (x y : ℚ)
  | lineTo (x y : ℚ)
  | strokePath
deriving DecidableEq

/-- JavaScript `a || b` on numbers, for the width/pressure fallbacks
(`stroke.width || 20`, `point.pressure || 1`): `0` is falsy. -/
def jsOrQ (a b : ℚ) : ℚ := if a = 0 then b else a

/-- `drawStroke` (DrawingCanvas.tsx lines 58–93) as the list of canvas
operations it issues.  Guard: `if (!stroke || stroke.points.length < 2) return`.
For `pen`, `ctx.lineWidth` is reassigned before every `lineTo`
(`(stroke.width || 3) * (point.pressure || 1)`); the other tools set the
width once in their branch. -/
def drawStroke (s : DrawingStroke) : List CanvasOp :=
  match s.points with
  | p0 :: p1 :: rest =>
    [CanvasOp.beginPath, CanvasOp.setStrokeStyle s.color,
     CanvasOp.setLineCapRound, CanvasOp.setLineJoinRound] ++
    (match s.tool with
     | ToolType.highlighter =>
         [CanvasOp.setAlpha (3/10), CanvasOp.setLineWidth (jsOrQ s.width 20)]
     | ToolType.eraser =>
         [CanvasOp.setComp CompOp.destinationOut,
          CanvasOp.setLineWidth (jsOrQ s.width 30)]
     | ToolType.pencil =>
         [CanvasOp.setAlpha (8/10), CanvasOp.setLineWidth (jsOrQ s.width 2)]
     | ToolType.pen =>
         [CanvasOp.setAlpha 1, CanvasOp.setLineWidth (jsOrQ s.width 3)]) ++
    [CanvasOp.moveTo p0.x p0.y] ++
    ((p1 :: rest).flatMap fun p =>
      (if s.tool = ToolType.pen then
         [CanvasOp.setLineWidth (jsOrQ s.width 3 * jsOrQ p.pressure 1)]
       else []) ++ [CanvasOp.lineTo p.x p.y]) ++
    [CanvasOp.strokePath, CanvasOp.setAlpha 1, CanvasOp.setComp CompOp.sourceOver]
  | _ => []

/-- The width-substitution snippet duplicated at DrawingCanvas.tsx
lines 108–110 (`redraw`) and 200–202 (`handlePointerUp`):
`let width = strokeWidth; if (tool === 'highlighter' && strokeWidth < 10)
width = 20; if (tool === 'eraser' && strokeWidth < 10) width = 30;`. -/
def commitWidth (tool : ToolType) (strokeWidth : ℚ) : ℚ :=
  if tool = ToolType.highlighter ∧ strokeWidth < 10 then 20
  else if tool = ToolType.eraser ∧ strokeWidth < 10 then 30
  else strokeWidth

/-- `redraw` (DrawingCanvas.tsx lines 95–119) as the list of canvas
operations it issues: clear, paint every committed stroke in order, then
the in-progress stroke if `isDrawing && pointsRef.current.length > 1`. -/
def redraw (strokes : List DrawingStroke) (isDrawing : Bool) (pts : List Point)
    (tool : ToolType) (color : String) (strokeWidth : ℚ) : List CanvasOp :=
  [CanvasOp.clearRect] ++ (strokes.flatMap drawStroke) ++
  (if isDrawing ∧ pts.length > 1 then
     drawStroke { points := pts, color := color,
                  width := commitWidth tool strokeWidth, tool := tool }
   else [])

/-- The mutable canvas-context state the component touches. -/
structure CtxState where
  alpha : ℚ
  comp : CompOp
  lineWidth : ℚ
  strokeStyle : String
deriving DecidableEq

/-- Effective paint parameters of one painted line segment: the context
state in force at its `lineTo`, plus the segment's target point. -/
structure SegPaint where
  alpha : ℚ
  comp : CompOp
  lineWidth : ℚ
  strokeStyle : String
  x : ℚ
  y : ℚ
deriving DecidableEq

/-- One canvas operation acting on the painted surface (list of effective
segments since the last clear) and the context state. -/
def renderStep (acc : List SegPaint × CtxState) (op : CanvasOp) :
    List SegPaint × CtxState :=
  match op with
  | CanvasOp.clearRect => ([], acc.2)
  | CanvasOp.setStrokeStyle c => (acc.1, { acc.2 with strokeStyle := c })
  | CanvasOp.setAlpha a => (acc.1, { acc.2 with alpha := a })
  | CanvasOp.setComp m => (acc.1, { acc.2 with comp := m })
  | CanvasOp.setLineWidth w => (acc.1, { acc.2 with lineWidth := w })
  | CanvasOp.lineTo x y =>
      (acc.1 ++ [{ alpha := acc.2.alpha, comp := acc.2.comp,
                   lineWidth := acc.2.lineWidth,
                   strokeStyle := acc.2.strokeStyle, x := x, y := y }], acc.2)
  | _ => acc

/-- Run a list of canvas operations on a surface/context pair. -/
def renderOps (ops : List CanvasOp) (acc : List SegPaint × CtxState) :
    List SegPaint × CtxState :=
  ops.foldl renderStep acc

/-- The effective segments painted by `ops` starting from context `c`
on an empty surface. -/
def segPaints (ops : List CanvasOp) (c : CtxState) : List SegPaint :=
  (renderOps ops ([], c)).1

/-- Device class of a pointer event (`e.pointerType`); `stylus` stands for
the `'pen'` pointer type. -/
inductive PointerKind
  | mouse
  | stylus
  | touch
deriving DecidableEq

/-- A pointer event reaching the component's handlers.  A `move` carries
its coalesced samples in arrival order (`getCoalescedEvents()`, falling
back to the event itself).  `up` stands for `pointerup`, `pointercancel`
and `pointerleave`, which are all wired to `handlePointerUp`. -/
inductive PointerEvent
  | down (pk : PointerKind) (p : Point)
  | move (pk : PointerKind) (ps : List Point)
  | up (pk : PointerKind)
deriving DecidableEq

/-- The externally supplied props the handlers read. -/
structure Config where
  tool : ToolType
  color : String
  strokeWidth : ℚ
  isDrawingEnabled : Bool
deriving DecidableEq

/-- The component's capture state: the `isDrawing` flag, the in-progress
point buffer `pointsRef.current`, and the externally owned stroke list. -/
structure CanvasState where
  isDrawing : Bool
  points : List Point
  strokes : List DrawingStroke
deriving DecidableEq

/-- `handlePointerDown` (lines 136–143): reject when drawing is disabled
or the pointer is touch; otherwise start capture with the engagement
point as the single buffered point. -/
def handlePointerDown (cfg : Config) (pk : PointerKind) (p : Point)
    (s : CanvasState) : CanvasState :=
  if ¬ cfg.isDrawingEnabled then s
  else if pk = PointerKind.touch then s
  else { s with isDrawing := true, points := [p] }

/-- State effect of `handlePointerMove` (lines 145–195): rejected unless
capturing, enabled and non-touch; every coalesced sample is pushed onto
the buffer in arrival order. -/
def handlePointerMove (cfg : Config) (pk : PointerKind) (ps : List Point)
    (s : CanvasState) : CanvasState :=
  if ¬ s.isDrawing ∨ ¬ cfg.isDrawingEnabled then s
  else if pk = PointerKind.touch then s
  else { s with points := s.points ++ ps }

/-- The stroke `handlePointerUp` commits (lines 204–209). -/
def commitStroke (cfg : Config) (s : CanvasState) : DrawingStroke :=
  { points := s.points, color := cfg.color,
    width := commitWidth cfg.tool cfg.strokeWidth, tool := cfg.tool }

/-- `handlePointerUp` (lines 197–214): touch events return untouched;
otherwise commit when `isDrawing && isDrawingEnabled &&
pointsRef.current.length > 1`, then clear the in-progress state. -/
def handlePointerUp (cfg : Config) (pk : PointerKind) (s : CanvasState) :
    CanvasState :=
  if pk = PointerKind.touch then s
  else
    { isDrawing := false, points := [],
      strokes :=
        if s.isDrawing ∧ cfg.isDrawingEnabled ∧ s.points.length > 1 then
          s.strokes ++ [commitStroke cfg s]
        else s.strokes }

/-- Dispatch one pointer event to its handler. -/
def step (cfg : Config) (e : PointerEvent) (s : CanvasState) : CanvasState :=
  match e with
  | PointerEvent.down pk p => handlePointerDown cfg pk p s
  | PointerEvent.move pk ps => handlePointerMove cfg pk ps s
  | PointerEvent.up pk => handlePointerUp cfg pk s

/-- Run a sequence of pointer events, each with the props in force when it
arrives. -/
def run (es : List (Config × PointerEvent)) (s : CanvasState) : CanvasState :=
  es.foldl (fun t ce => step ce.1 ce.2 t) s

/-- Device class of an event. -/
def PointerEvent.kind : PointerEvent → PointerKind
  | PointerEvent.down pk _ => pk
  | PointerEvent.move pk _ => pk
  | PointerEvent.up pk => pk

/-- The canvas operations `handlePointerMove` issues for one coalesced
sample (lines 163–193), given the previous buffered point `lp`: one
segment from `lp` to `p`, painted with the per-tool incremental rule
(highlighter α 0.3 width 20, eraser destination-out width 30, pencil
α 0.8 width 2, pen α 1 width `strokeWidth * (point.pressure || 1)`),
followed by the α/compositing reset. -/
def incrementalSegOps (tool : ToolType) (color : String) (strokeWidth : ℚ)
    (lp p : Point) : List CanvasOp :=
  [CanvasOp.beginPath, CanvasOp.setStrokeStyle color,
   CanvasOp.setLineCapRound, CanvasOp.setLineJoinRound] ++
  (match tool with
   | ToolType.highlighter => [CanvasOp.setAlpha (3/10), CanvasOp.setLineWidth 20]
   | ToolType.eraser =>
       [CanvasOp.setComp CompOp.destinationOut, CanvasOp.setLineWidth 30]
   | ToolType.pencil => [CanvasOp.setAlpha (8/10), CanvasOp.setLineWidth 2]
   | ToolType.pen =>
       [CanvasOp.setAlpha 1,
        CanvasOp.setLineWidth (strokeWidth * jsOrQ p.pressure 1)]) ++
  [CanvasOp.moveTo lp.x lp.y, CanvasOp.lineTo p.x p.y, CanvasOp.strokePath,
   CanvasOp.setAlpha 1, CanvasOp.setComp CompOp.sourceOver]

/-- The canvas operations issued by the incremental path over a whole
captured point list `pts` (engagement point first): one
`incrementalSegOps` per consecutive pair, in order. -/
def incrementalOps (tool : ToolType) (color : String) (strokeWidth : ℚ)
    (pts : List Point) : List CanvasOp :=
  (pts.zip pts.tail).flatMap fun q => incrementalSegOps tool color strokeWidth q.1 q.2

/-- `getDataURL` from the imperative handle (lines 220–222):
`canvasRef.current?.toDataURL() || ''`.  The mounted canvas is abstracted
by the string its `toDataURL()` returns. -/
def getDataURL (canvas : Option String) : String :=
  match canvas with
  | none => ""
  | some d => if d = "" then "" else d

/-- `clear` from the imperative handle (lines 217–219): replace the
external stroke list with the empty list, whatever it held. -/
def clearStrokes (_prior : List DrawingStroke) : List DrawingStroke := []

/-- Effective opacity a stroke of tool `t` is painted with when the
context's opacity on entry is `a` (the eraser branch never assigns
`globalAlpha`, so it inherits the entry value). -/
def strokeEntryAlpha (t : ToolType) (a : ℚ) : ℚ :=
  match t with
  | ToolType.highlighter => 3/10
  | ToolType.pencil => 8/10
  | ToolType.pen => 1
  | ToolType.eraser => a

/-- Effective compositing mode for tool `t` given the mode `m` on entry
(only the eraser branch assigns `globalCompositeOperation`). -/
def strokeComp (t : ToolType) (m : CompOp) : CompOp :=
  match t with
  | ToolType.eraser => CompOp.destinationOut
  | _ => m

/-- Line width in force at the `lineTo` of the segment ending at `p`
inside `drawStroke`, for a stroke of tool `t` and stored width `w`. -/
def strokeSegWidth (t : ToolType) (w : ℚ) (p : Point) : ℚ :=
  match t with
  | ToolType.pen => jsOrQ w 3 * jsOrQ p.pressure 1
  | ToolType.pencil => jsOrQ w 2
  | ToolType.highlighter => jsOrQ w 20
  | ToolType.eraser => jsOrQ w 30

/-- Closed form of the segments `drawStroke s` paints, given the entry
opacity `a` and compositing mode `m`. -/
def drawStrokeSegs (s : DrawingStroke) (a : ℚ) (m : CompOp) : List SegPaint :=
  match s.points with
  | _ :: p1 :: rest =>
    (p1 :: rest).map fun p =>
      { alpha := strokeEntryAlpha s.tool a, comp := strokeComp s.tool m,
        lineWidth := strokeSegWidth s.tool s.width p,
        strokeStyle := s.color, x := p.x, y := p.y }
  | _ => []

/-- Closed form of the context state `drawStroke s` leaves behind. -/
def drawStrokeExit (s : DrawingStroke) (c : CtxState) : CtxState :=
  match s.points with
  | _ :: p1 :: rest =>
    { alpha := 1, comp := CompOp.sourceOver,
      lineWidth := ((p1 :: rest).map (strokeSegWidth s.tool s.width)).getLastD c.lineWidth,
      strokeStyle := s.color }
  | _ => c

theorem renderOps_append (a b : List CanvasOp) (acc : List SegPaint × CtxState) :
    renderOps (a ++ b) acc = renderOps b (renderOps a acc) := by
  simp [renderOps, List.foldl_append]

theorem renderOps_nil (acc : List SegPaint × CtxState) : renderOps [] acc = acc := rfl

/-- Painting a run of bare `lineTo`s: every segment carries the current
context state, which does not change. -/
theorem renderOps_lineTos (ps : List Point) (surf : List SegPaint) (c : CtxState) :
    renderOps (ps.flatMap fun p => [CanvasOp.lineTo p.x p.y]) (surf, c) =
      (surf ++ ps.map fun p =>
        { alpha := c.alpha, comp := c.comp, lineWidth := c.lineWidth,
          strokeStyle := c.strokeStyle, x := p.x, y := p.y }, c) := by
  induction ps generalizing surf with
  | nil => simp [renderOps]
  | cons p ps ih =>
      simp only [List.flatMap_cons, List.map_cons]
      rw [renderOps_append]
      have h1 : renderOps [CanvasOp.lineTo p.x p.y] (surf, c) =
          (surf ++ [(⟨c.alpha, c.comp, c.lineWidth, c.strokeStyle, p.x, p.y⟩ : SegPaint)], c) := rfl
      rw [h1, ih]
      simp

/-- Fallback-default form of "the last width set in the pen loop". -/
theorem getLast_fallback_map (f : Point → ℚ) (l : List Point) :
    ∀ (a : Point) (d : ℚ), (f a :: List.map f l).getLast?.getD d = f (l.getLast?.getD a) := by
  induction l with
  | nil =>
      intro a d
      rfl
  | cons q qs ih =>
      intro a d
      rw [List.map_cons, List.getLast?_cons_cons, ih q d]
      have h2 : (q :: qs).getLast?.getD a = qs.getLast?.getD q := by
        rw [← List.getLastD_eq_getLast?, ← List.getLastD_eq_getLast?, List.getLastD_cons]
      rw [h2]

/-- Painting the pen loop: a `lineWidth` assignment before every `lineTo`. -/
theorem renderOps_penLoop (f : Point → ℚ) (ps : List Point)
    (surf : List SegPaint) (c : CtxState) :
    renderOps (ps.flatMap fun p => [CanvasOp.setLineWidth (f p), CanvasOp.lineTo p.x p.y]) (surf, c) =
      (surf ++ ps.map fun p =>
        { alpha := c.alpha, comp := c.comp, lineWidth := f p,
          strokeStyle := c.strokeStyle, x := p.x, y := p.y },
       { c with lineWidth := (ps.map f).getLastD c.lineWidth }) := by
  induction ps generalizing surf c with
  | nil => simp [renderOps]
  | cons p ps ih =>
      simp only [List.flatMap_cons, List.map_cons]
      rw [renderOps_append]
      have h1 : renderOps [CanvasOp.setLineWidth (f p), CanvasOp.lineTo p.x p.y] (surf, c) =
          (surf ++ [(⟨c.alpha, c.comp, f p, c.strokeStyle, p.x, p.y⟩ : SegPaint)],
           { c with lineWidth := f p }) := rfl
      rw [h1, ih]
      simp [List.getLastD_cons]
      cases ps with
      | nil => rfl
      | cons q qs => rw [getLast_fallback_map f (q :: qs) p c.lineWidth]

/-- The `getLastD` of a nonempty mapped list ignores its default. -/
theorem getLastD_map_default (f : Point → ℚ) (l : List Point) (a : Point) (d e : ℚ) :
    ((a :: l).map f).getLastD d = ((a :: l).map f).getLastD e := by
  rw [List.map_cons, List.getLastD_cons, List.getLastD_cons]

/-- `getLastD` of a nonempty constant map is the constant. -/
theorem getLastD_const_map (k : ℚ) (l : List Point) :
    ∀ (a : Point) (d : ℚ), (((a :: l).map fun _ => k)).getLastD d = k := by
  induction l with
  | nil =>
      intro a d
      rfl
  | cons b bs ih =>
      intro a d
      rw [List.map_cons, List.getLastD_cons]
      exact ih b k

/-- Closed form of `drawStroke` under the render model: the painted
segments are `drawStrokeSegs` at the entry opacity/compositing mode, and
the context is left as `drawStrokeExit`. -/
theorem drawStroke_render (s : DrawingStroke) (surf : List SegPaint) (c : CtxState) :
    renderOps (drawStroke s) (surf, c) =
      (surf ++ drawStrokeSegs s c.alpha c.comp, drawStrokeExit s c) := by
  obtain ⟨pts, col, w, t⟩ := s
  cases pts with
  | nil => simp [drawStroke, drawStrokeSegs, drawStrokeExit, renderOps]
  | cons p0 rest =>
  cases rest with
  | nil => simp [drawStroke, drawStrokeSegs, drawStrokeExit, renderOps]
  | cons p1 rest2 =>
  cases t with
  | pen =>
      have e1 : drawStroke ⟨p0 :: p1 :: rest2, col, w, ToolType.pen⟩ =
          ([CanvasOp.beginPath, CanvasOp.setStrokeStyle col, CanvasOp.setLineCapRound,
            CanvasOp.setLineJoinRound, CanvasOp.setAlpha 1,
            CanvasOp.setLineWidth (jsOrQ w 3), CanvasOp.moveTo p0.x p0.y] ++
           ((p1 :: rest2).flatMap fun p =>
             [CanvasOp.setLineWidth (jsOrQ w 3 * jsOrQ p.pressure 1),
              CanvasOp.lineTo p.x p.y]) ++
           [CanvasOp.strokePath, CanvasOp.setAlpha 1, CanvasOp.setComp CompOp.sourceOver]) := by
        simp [drawStroke]
      rw [e1, renderOps_append, renderOps_append]
      have h1 : renderOps [CanvasOp.beginPath, CanvasOp.setStrokeStyle col,
          CanvasOp.setLineCapRound, CanvasOp.setLineJoinRound, CanvasOp.setAlpha 1,
          CanvasOp.setLineWidth (jsOrQ w 3), CanvasOp.moveTo p0.x p0.y] (surf, c) =
          (surf, (⟨1, c.comp, jsOrQ w 3, col⟩ : CtxState)) := rfl
      rw [h1, renderOps_penLoop]
      have h2 : ∀ (S : List SegPaint) (c1 : CtxState),
          renderOps [CanvasOp.strokePath, CanvasOp.setAlpha 1,
            CanvasOp.setComp CompOp.sourceOver] (S, c1) =
          (S, { c1 with alpha := 1, comp := CompOp.sourceOver }) := fun S c1 => rfl
      rw [h2]
      simp only [drawStrokeSegs, drawStrokeExit, strokeEntryAlpha, strokeComp, strokeSegWidth]
      refine Prod.ext ?_ ?_
      · simp
      · have hsw : strokeSegWidth ToolType.pen w = fun p => jsOrQ w 3 * jsOrQ p.pressure 1 := by
          funext p
          rfl
        rw [hsw, getLastD_map_default (fun p => jsOrQ w 3 * jsOrQ p.pressure 1) rest2 p1 (jsOrQ w 3) c.lineWidth]
  | pencil =>
      have e1 : drawStroke ⟨p0 :: p1 :: rest2, col, w, ToolType.pencil⟩ =
          ([CanvasOp.beginPath, CanvasOp.setStrokeStyle col, CanvasOp.setLineCapRound,
            CanvasOp.setLineJoinRound, CanvasOp.setAlpha (8/10),
            CanvasOp.setLineWidth (jsOrQ w 2), CanvasOp.moveTo p0.x p0.y] ++
           ((p1 :: rest2).flatMap fun p => [CanvasOp.lineTo p.x p.y]) ++
           [CanvasOp.strokePath, CanvasOp.setAlpha 1, CanvasOp.setComp CompOp.sourceOver]) := by
        simp [drawStroke]
      rw [e1, renderOps_append, renderOps_append]
      have h1 : renderOps [CanvasOp.beginPath, CanvasOp.setStrokeStyle col,
          CanvasOp.setLineCapRound, CanvasOp.setLineJoinRound, CanvasOp.setAlpha (8/10),
          CanvasOp.setLineWidth (jsOrQ w 2), CanvasOp.moveTo p0.x p0.y] (surf, c) =
          (surf, (⟨8/10, c.comp, jsOrQ w 2, col⟩ : CtxState)) := rfl
      rw [h1, renderOps_lineTos]
      have h2 : ∀ (S : List SegPaint) (c1 : CtxState),
          renderOps [CanvasOp.strokePath, CanvasOp.setAlpha 1,
            CanvasOp.setComp CompOp.sourceOver] (S, c1) =
          (S, { c1 with alpha := 1, comp := CompOp.sourceOver }) := fun S c1 => rfl
      rw [h2]
      simp only [drawStrokeSegs, drawStrokeExit, strokeEntryAlpha, strokeComp, strokeSegWidth]
      refine Prod.ext ?_ ?_
      · simp
      · have hsw : strokeSegWidth ToolType.pencil w = fun _ => jsOrQ w 2 := by
          funext p
          rfl
        rw [hsw, getLastD_const_map (jsOrQ w 2) rest2 p1 c.lineWidth]
  | highlighter =>
      have e1 : drawStroke ⟨p0 :: p1 :: rest2, col, w, ToolType.highlighter⟩ =
          ([CanvasOp.beginPath, CanvasOp.setStrokeStyle col, CanvasOp.setLineCapRound,
            CanvasOp.setLineJoinRound, CanvasOp.setAlpha (3/10),
            CanvasOp.setLineWidth (jsOrQ w 20), CanvasOp.moveTo p0.x p0.y] ++
           ((p1 :: rest2).flatMap fun p => [CanvasOp.lineTo p.x p.y]) ++
           [CanvasOp.strokePath, CanvasOp.setAlpha 1, CanvasOp.setComp CompOp.sourceOver]) := by
        simp [drawStroke]
      rw [e1, renderOps_append, renderOps_append]
      have h1 : renderOps [CanvasOp.beginPath, CanvasOp.setStrokeStyle col,
          CanvasOp.setLineCapRound, CanvasOp.setLineJoinRound, CanvasOp.setAlpha (3/10),
          CanvasOp.setLineWidth (jsOrQ w 20), CanvasOp.moveTo p0.x p0.y] (surf, c) =
          (surf, (⟨3/10, c.comp, jsOrQ w 20, col⟩ : CtxState)) := rfl
      rw [h1, renderOps_lineTos]
      have h2 : ∀ (S : List SegPaint) (c1 : CtxState),
          renderOps [CanvasOp.strokePath, CanvasOp.setAlpha 1,
            CanvasOp.setComp CompOp.sourceOver] (S, c1) =
          (S, { c1 with alpha := 1, comp := CompOp.sourceOver }) := fun S c1 => rfl
      rw [h2]
      simp only [drawStrokeSegs, drawStrokeExit, strokeEntryAlpha, strokeComp, strokeSegWidth]
      refine Prod.ext ?_ ?_
      · simp
      · have hsw : strokeSegWidth ToolType.highlighter w = fun _ => jsOrQ w 20 := by
          funext p
          rfl
        rw [hsw, getLastD_const_map (jsOrQ w 20) rest2 p1 c.lineWidth]
  | eraser =>
      have e1 : drawStroke ⟨p0 :: p1 :: rest2, col, w, ToolType.eraser⟩ =
          ([CanvasOp.beginPath, CanvasOp.setStrokeStyle col, CanvasOp.setLineCapRound,
            CanvasOp.setLineJoinRound, CanvasOp.setComp CompOp.destinationOut,
            CanvasOp.setLineWidth (jsOrQ w 30), CanvasOp.moveTo p0.x p0.y] ++
           ((p1 :: rest2).flatMap fun p => [CanvasOp.lineTo p.x p.y]) ++
           [CanvasOp.strokePath, CanvasOp.setAlpha 1, CanvasOp.setComp CompOp.sourceOver]) := by
        simp [drawStroke]
      rw [e1, renderOps_append, renderOps_append]
      have h1 : renderOps [CanvasOp.beginPath, CanvasOp.setStrokeStyle col,
          CanvasOp.setLineCapRound, CanvasOp.setLineJoinRound,
          CanvasOp.setComp CompOp.destinationOut,
          CanvasOp.setLineWidth (jsOrQ w 30), CanvasOp.moveTo p0.x p0.y] (surf, c) =
          (surf, (⟨c.alpha, CompOp.destinationOut, jsOrQ w 30, col⟩ : CtxState)) := rfl
      rw [h1, renderOps_lineTos]
      have h2 : ∀ (S : List SegPaint) (c1 : CtxState),
          renderOps [CanvasOp.strokePath, CanvasOp.setAlpha 1,
            CanvasOp.setComp CompOp.sourceOver] (S, c1) =
          (S, { c1 with alpha := 1, comp := CompOp.sourceOver }) := fun S c1 => rfl
      rw [h2]
      simp only [drawStrokeSegs, drawStrokeExit, strokeEntryAlpha, strokeComp, strokeSegWidth]
      refine Prod.ext ?_ ?_
      · simp
      · have hsw : strokeSegWidth ToolType.eraser w = fun _ => jsOrQ w 30 := by
          funext p
          rfl
        rw [hsw, getLastD_const_map (jsOrQ w 30) rest2 p1 c.lineWidth]

/-- Painting a list of strokes in order, in closed form: surface and
context evolve by `drawStrokeSegs`/`drawStrokeExit` per stroke. -/
def paintFold (l : List DrawingStroke) (surf : List SegPaint) (c : CtxState) :
    List SegPaint × CtxState :=
  match l with
  | [] => (surf, c)
  | s :: rest => paintFold rest (surf ++ drawStrokeSegs s c.alpha c.comp) (drawStrokeExit s c)

theorem renderOps_strokes (l : List DrawingStroke) (surf : List SegPaint) (c : CtxState) :
    renderOps (l.flatMap drawStroke) (surf, c) = paintFold l surf c := by
  induction l generalizing surf c with
  | nil => rfl
  | cons s rest ih =>
      rw [List.flatMap_cons, renderOps_append, drawStroke_render, ih]
      rfl

/-- `drawStroke` restores the normal-opaque defaults: if opacity and
compositing are at their defaults on entry, they are on exit too. -/
theorem drawStrokeExit_norm (s : DrawingStroke) (c : CtxState)
    (h1 : c.alpha = 1) (h2 : c.comp = CompOp.sourceOver) :
    (drawStrokeExit s c).alpha = 1 ∧ (drawStrokeExit s c).comp = CompOp.sourceOver := by
  rcases s with ⟨pts, col, w, t⟩
  cases pts with
  | nil => exact ⟨h1, h2⟩
  | cons a rest =>
      cases rest with
      | nil => exact ⟨h1, h2⟩
      | cons b r2 => exact ⟨rfl, rfl⟩

/-- A stroke with fewer than 2 points paints nothing and leaves the
context untouched. -/
theorem drawStrokeExit_short (s : DrawingStroke) (c : CtxState)
    (h : s.points.length < 2) : drawStrokeExit s c = c := by
  rcases s with ⟨pts, col, w, t⟩
  cases pts with
  | nil => rfl
  | cons a rest =>
      cases rest with
      | nil => rfl
      | cons b r2 =>
          simp only [List.length_cons] at h
          exact absurd h (by omega)

/-- The context a painting stroke leaves behind does not depend on the
context it entered with. -/
theorem drawStrokeExit_const (s : DrawingStroke) (c c' : CtxState)
    (h : 2 ≤ s.points.length) : drawStrokeExit s c = drawStrokeExit s c' := by
  rcases s with ⟨pts, col, w, t⟩
  cases pts with
  | nil => simp at h
  | cons a rest =>
      cases rest with
      | nil => simp at h
      | cons b r2 =>
          simp only [drawStrokeExit]
          rw [getLastD_map_default (strokeSegWidth t w) r2 b c.lineWidth c'.lineWidth]

/-- Surface painted by a stroke list from a normal-opaque context: each
stroke's segments at default opacity/compositing, in list order. -/
theorem paintFold_surface (l : List DrawingStroke) :
    ∀ (surf : List SegPaint) (c : CtxState), c.alpha = 1 → c.comp = CompOp.sourceOver →
    (paintFold l surf c).1 =
      surf ++ l.flatMap (fun s => drawStrokeSegs s 1 CompOp.sourceOver) := by
  induction l with
  | nil =>
      intro surf c h1 h2
      simp [paintFold]
  | cons s rest ih =>
      intro surf c h1 h2
      obtain ⟨e1, e2⟩ := drawStrokeExit_norm s c h1 h2
      simp only [paintFold]
      rw [ih _ _ e1 e2, h1, h2]
      simp [List.flatMap_cons, List.append_assoc]

theorem paintFold_ctx (l : List DrawingStroke) :
    ∀ (surf : List SegPaint) (c : CtxState),
    (paintFold l surf c).2 = l.foldl (fun d s => drawStrokeExit s d) c := by
  induction l with
  | nil =>
      intro surf c
      rfl
  | cons s rest ih =>
      intro surf c
      simp only [paintFold, List.foldl_cons]
      exact ih _ _

/-- The exit context of a whole stroke list either forgets the entry
context or is the identity on it. -/
theorem exitFold_cases (l : List DrawingStroke) :
    ∀ c c' : CtxState,
      l.foldl (fun d s => drawStrokeExit s d) c = l.foldl (fun d s => drawStrokeExit s d) c' ∨
      (l.foldl (fun d s => drawStrokeExit s d) c = c ∧
       l.foldl (fun d s => drawStrokeExit s d) c' = c') := by
  induction l with
  | nil =>
      intro c c'
      right
      exact ⟨rfl, rfl⟩
  | cons s rest ih =>
      intro c c'
      by_cases h : 2 ≤ s.points.length
      · left
        rw [List.foldl_cons, List.foldl_cons, drawStrokeExit_const s c c' h]
      · have hs : s.points.length < 2 := by omega
        rw [List.foldl_cons, List.foldl_cons, drawStrokeExit_short s c hs,
          drawStrokeExit_short s c' hs]
        exact ih c c'

/-- Line width the incremental path uses for the segment ending at `p`
(lines 170–183): hard-coded 20/30/2 for highlighter/eraser/pencil, and
the configured width times the pressure fallback for pen. -/
def incrSegWidth (t : ToolType) (w : ℚ) (p : Point) : ℚ :=
  match t with
  | ToolType.highlighter => 20
  | ToolType.eraser => 30
  | ToolType.pencil => 2
  | ToolType.pen => w * jsOrQ p.pressure 1

/-- Closed form of one incremental segment paint. -/
theorem incrementalSegOps_render (t : ToolType) (col : String) (w : ℚ)
    (lp p : Point) (surf : List SegPaint) (c : CtxState) :
    renderOps (incrementalSegOps t col w lp p) (surf, c) =
      (surf ++ [(⟨strokeEntryAlpha t c.alpha, strokeComp t c.comp,
                  incrSegWidth t w p, col, p.x, p.y⟩ : SegPaint)],
       (⟨1, CompOp.sourceOver, incrSegWidth t w p, col⟩ : CtxState)) := by
  cases t <;> rfl

/-- Closed form of a run of incremental segment paints from a
normal-opaque context. -/
theorem incrementalOps_render (t : ToolType) (col : String) (w : ℚ)
    (prs : List (Point × Point)) :
    ∀ (surf : List SegPaint) (c : CtxState), c.alpha = 1 → c.comp = CompOp.sourceOver →
    (renderOps (prs.flatMap fun q => incrementalSegOps t col w q.1 q.2) (surf, c)).1 =
      surf ++ prs.map (fun q =>
        (⟨strokeEntryAlpha t 1, strokeComp t CompOp.sourceOver,
          incrSegWidth t w q.2, col, q.2.x, q.2.y⟩ : SegPaint)) := by
  induction prs with
  | nil =>
      intro surf c h1 h2
      simp [renderOps]
  | cons q rest ih =>
      intro surf c h1 h2
      rw [List.flatMap_cons, renderOps_append, incrementalSegOps_render, h1, h2]
      rw [ih _ _ rfl rfl]
      simp

/-- The segments the incremental path paints over a whole captured point
list, from a normal-opaque context. -/
theorem incrementalOps_segPaints (t : ToolType) (col : String) (w : ℚ)
    (pts : List Point) (c : CtxState)
    (h1 : c.alpha = 1) (h2 : c.comp = CompOp.sourceOver) :
    segPaints (incrementalOps t col w pts) c =
      (pts.zip pts.tail).map (fun q =>
        (⟨strokeEntryAlpha t 1, strokeComp t CompOp.sourceOver,
          incrSegWidth t w q.2, col, q.2.x, q.2.y⟩ : SegPaint)) := by
  unfold segPaints incrementalOps
  rw [incrementalOps_render t col w _ [] c h1 h2]
  simp

/-- Mapping a function of the second component over `pts.zip pts.tail`
is mapping it over `pts.tail`. -/
theorem zip_tail_map_snd (g : Point → SegPaint) (pts : List Point) :
    (pts.zip pts.tail).map (fun q => g q.2) = pts.tail.map g := by
  have h : (pts.zip pts.tail).map Prod.snd = pts.tail := by
    apply List.map_snd_zip
    cases pts with
    | nil => simp
    | cons a rest => simp
  calc (pts.zip pts.tail).map (fun q => g q.2)
      = ((pts.zip pts.tail).map Prod.snd).map g := by rw [List.map_map]; rfl
    _ = pts.tail.map g := by rw [h]

theorem run_append (a b : List (Config × PointerEvent)) (s : CanvasState) :
    run (a ++ b) s = run b (run a s) := by
  simp [run, List.foldl_append]

/-- One capture session at fixed props: an engagement, a list of move
events (each with its own device kind and coalesced samples in arrival
order), and one release. -/
def sessionEvents (cfg : Config) (pkd : PointerKind) (p0 : Point)
    (moves : List (PointerKind × List Point)) (pku : PointerKind) :
    List (Config × PointerEvent) :=
  [(cfg, PointerEvent.down pkd p0)] ++
  (moves.map fun m => (cfg, PointerEvent.move m.1 m.2)) ++
  [(cfg, PointerEvent.up pku)]

/-- While engaged and enabled, accepted move events append all their
coalesced samples to the buffer, in arrival order. -/
theorem run_moves (cfg : Config) (moves : List (PointerKind × List Point)) :
    ∀ s : CanvasState, s.isDrawing = true → cfg.isDrawingEnabled = true →
    (∀ m ∈ moves, m.1 ≠ PointerKind.touch) →
    run (moves.map fun m => (cfg, PointerEvent.move m.1 m.2)) s =
      { s with points := s.points ++ (moves.map Prod.snd).flatten } := by
  induction moves with
  | nil =>
      intro s hdraw he _
      simp [run]
  | cons m rest ih =>
      intro s hdraw he hm
      have hmt : m.1 ≠ PointerKind.touch := hm m (List.mem_cons_self m rest)
      have h1 : step cfg (PointerEvent.move m.1 m.2) s =
          { s with points := s.points ++ m.2 } := by
        simp [step, handlePointerMove, hdraw, he, hmt]
      rw [List.map_cons]
      rw [show run ((cfg, PointerEvent.move m.1 m.2) ::
            rest.map fun m => (cfg, PointerEvent.move m.1 m.2)) s =
          run (rest.map fun m => (cfg, PointerEvent.move m.1 m.2))
            (step cfg (PointerEvent.move m.1 m.2) s) from rfl]
      rw [h1, ih { s with points := s.points ++ m.2 } (by exact hdraw) he
        (fun x hx => hm x (List.mem_cons_of_mem m hx))]
      simp [List.append_assoc]

/-- Full closed form of one capture session: the buffer ends cleared, and
a single stroke holding the engagement point followed by every coalesced
sample in arrival order is appended exactly when at least 2 points were
captured. -/
theorem run_session (cfg : Config) (pkd : PointerKind) (p0 : Point)
    (moves : List (PointerKind × List Point)) (pku : PointerKind)
    (s₀ : CanvasState)
    (hd : pkd ≠ PointerKind.touch) (hu : pku ≠ PointerKind.touch)
    (hm : ∀ m ∈ moves, m.1 ≠ PointerKind.touch)
    (he : cfg.isDrawingEnabled = true) :
    run (sessionEvents cfg pkd p0 moves pku) s₀ =
      { isDrawing := false, points := [],
        strokes :=
          if 1 < (p0 :: (moves.map Prod.snd).flatten).length then
            s₀.strokes ++ [{ points := p0 :: (moves.map Prod.snd).flatten,
                             color := cfg.color,
                             width := commitWidth cfg.tool cfg.strokeWidth,
                             tool := cfg.tool }]
          else s₀.strokes } := by
  unfold sessionEvents
  rw [run_append, run_append]
  have h1 : run [(cfg, PointerEvent.down pkd p0)] s₀ =
      { s₀ with isDrawing := true, points := [p0] } := by
    simp [run, step, handlePointerDown, he, hd]
  rw [h1, run_moves cfg moves _ rfl he hm]
  simp [run, step, handlePointerUp, commitStroke, hu, he]

/-- Claim C1 counterexample: with tool `highlighter` and configured width
15 — below the claimed highlighter minimum 20 — a full capture session
commits a stroke of width 15, not the 20 the claim requires (the code's
substitution threshold is `strokeWidth < 10`, not the tool minimum). -/
theorem c1_counterexample :
    (run [(⟨ToolType.highlighter, "#ff0", 15, true⟩,
            PointerEvent.down PointerKind.stylus ⟨0, 0, 1/2⟩),
          (⟨ToolType.highlighter, "#ff0", 15, true⟩,
            PointerEvent.move PointerKind.stylus [⟨5, 5, 1/2⟩]),
          (⟨ToolType.highlighter, "#ff0", 15, true⟩,
            PointerEvent.up PointerKind.stylus)]
        ⟨false, [], []⟩).strokes.map DrawingStroke.width = [15] ∧
    (15 : ℚ) < 20 ∧ (15 : ℚ) ≠ 20 := by
  decide

/-- Claim C1 (amended): for every capture session that ends in a commit,
the committed width is 20 when the tool is highlighter and the configured
width is below 10, 30 when the tool is eraser and the configured width is
below 10, and the configured width otherwise. -/
theorem c1_committed_width (cfg : Config) (pkd pku : PointerKind) (p0 : Point)
    (moves : List (PointerKind × List Point)) (s₀ : CanvasState)
    (hd : pkd ≠ PointerKind.touch) (hu : pku ≠ PointerKind.touch)
    (hm : ∀ m ∈ moves, m.1 ≠ PointerKind.touch)
    (he : cfg.isDrawingEnabled = true)
    (hlen : 1 < (p0 :: (moves.map Prod.snd).flatten).length) :
    (run (sessionEvents cfg pkd p0 moves pku) s₀).strokes.map DrawingStroke.width =
      s₀.strokes.map DrawingStroke.width ++
      [if cfg.tool = ToolType.highlighter ∧ cfg.strokeWidth < 10 then 20
       else if cfg.tool = ToolType.eraser ∧ cfg.strokeWidth < 10 then 30
       else cfg.strokeWidth] := by
  have hs : 0 < (List.map (List.length ∘ Prod.snd) moves).sum := by
    have h2 : 0 < (List.map Prod.snd moves).flatten.length := by
      simp only [List.length_cons] at hlen
      omega
    rw [List.length_flatten, List.map_map] at h2
    exact h2
  rw [run_session cfg pkd p0 moves pku s₀ hd hu hm he]
  simp [hs, commitWidth]

theorem c1_committed_width_witness :
    (run (sessionEvents ⟨ToolType.eraser, "#0f0", 5, true⟩ PointerKind.stylus
        ⟨0, 0, 1/2⟩ [(PointerKind.stylus, [⟨1, 1, 1/2⟩])] PointerKind.stylus)
      ⟨false, [], []⟩).strokes.map DrawingStroke.width = [30] := by
  have h := c1_committed_width ⟨ToolType.eraser, "#0f0", 5, true⟩
    PointerKind.stylus PointerKind.stylus ⟨0, 0, 1/2⟩
    [(PointerKind.stylus, [⟨1, 1, 1/2⟩])] ⟨false, [], []⟩
    (by decide) (by decide) (by decide) rfl (by decide)
  rw [h]
  decide

/-- Claim C3: for every capture session of accepted events, the committed
stroke (when one is committed, i.e. at least 2 points were captured)
contains exactly the engagement point followed by every coalesced sample
of every move event, in arrival order. -/
theorem c3_committed_points (cfg : Config) (pkd pku : PointerKind) (p0 : Point)
    (moves : List (PointerKind × List Point)) (s₀ : CanvasState)
    (hd : pkd ≠ PointerKind.touch) (hu : pku ≠ PointerKind.touch)
    (hm : ∀ m ∈ moves, m.1 ≠ PointerKind.touch)
    (he : cfg.isDrawingEnabled = true)
    (hlen : 1 < (p0 :: (moves.map Prod.snd).flatten).length) :
    (run (sessionEvents cfg pkd p0 moves pku) s₀).strokes =
      s₀.strokes ++ [{ points := p0 :: (moves.map Prod.snd).flatten,
                       color := cfg.color,
                       width := commitWidth cfg.tool cfg.strokeWidth,
                       tool := cfg.tool }] := by
  have hs : 0 < (List.map (List.length ∘ Prod.snd) moves).sum := by
    have h2 : 0 < (List.map Prod.snd moves).flatten.length := by
      simp only [List.length_cons] at hlen
      omega
    rw [List.length_flatten, List.map_map] at h2
    exact h2
  rw [run_session cfg pkd p0 moves pku s₀ hd hu hm he]
  simp [hs]

theorem c3_committed_points_witness :
    (run (sessionEvents ⟨ToolType.pen, "#00f", 3, true⟩ PointerKind.mouse
        ⟨0, 0, 1⟩ [(PointerKind.mouse, [⟨1, 0, 1⟩, ⟨2, 0, 1⟩]),
                   (PointerKind.mouse, [⟨3, 0, 1⟩])] PointerKind.mouse)
      ⟨false, [], []⟩).strokes =
      [{ points := [⟨0, 0, 1⟩, ⟨1, 0, 1⟩, ⟨2, 0, 1⟩, ⟨3, 0, 1⟩],
         color := "#00f", width := 3, tool := ToolType.pen }] := by
  have h := c3_committed_points ⟨ToolType.pen, "#00f", 3, true⟩
    PointerKind.mouse PointerKind.mouse ⟨0, 0, 1⟩
    [(PointerKind.mouse, [⟨1, 0, 1⟩, ⟨2, 0, 1⟩]), (PointerKind.mouse, [⟨3, 0, 1⟩])]
    ⟨false, [], []⟩ (by decide) (by decide) (by decide) rfl (by decide)
  rw [h]
  decide

/-- Claim C4 counterexample: a non-touch release while engaged with 2
buffered points but `isDrawingEnabled = false` commits nothing, although
the claim requires every ≥2-point buffer to be committed at an
end-of-capture event. -/
theorem c4_counterexample :
    2 ≤ (([⟨0, 0, 1/2⟩, ⟨1, 1, 1/2⟩] : List Point)).length ∧
    (handlePointerUp ⟨ToolType.pen, "#000", 3, false⟩ PointerKind.mouse
      ⟨true, [⟨0, 0, 1/2⟩, ⟨1, 1, 1/2⟩], []⟩).strokes = [] := by
  decide

/-- Claim C4 (amended): a touch end event changes nothing; every other
end-of-capture event clears the drawing flag and the point buffer, and
appends the in-progress stroke to the external list exactly when the
engine was engaged, drawing was enabled at the event, and the buffer held
at least 2 points — otherwise the external list is unchanged, with no
error in either case. -/
theorem c4_end_of_capture (cfg : Config) (pk : PointerKind) (s : CanvasState) :
    (pk = PointerKind.touch → handlePointerUp cfg pk s = s) ∧
    (pk ≠ PointerKind.touch →
      (handlePointerUp cfg pk s).isDrawing = false ∧
      (handlePointerUp cfg pk s).points = [] ∧
      (handlePointerUp cfg pk s).strokes =
        (if s.isDrawing ∧ cfg.isDrawingEnabled ∧ 1 < s.points.length then
           s.strokes ++ [commitStroke cfg s]
         else s.strokes)) := by
  constructor
  · intro h
    simp [handlePointerUp, h]
  · intro h
    simp [handlePointerUp, h]

theorem c4_end_of_capture_witness :
    (handlePointerUp ⟨ToolType.pen, "#fff", 3, true⟩ PointerKind.mouse
      ⟨true, [⟨0, 0, 1⟩, ⟨2, 3, 1⟩], []⟩).strokes =
      [{ points := [⟨0, 0, 1⟩, ⟨2, 3, 1⟩], color := "#fff", width := 3,
         tool := ToolType.pen }] := by
  have h := (c4_end_of_capture ⟨ToolType.pen, "#fff", 3, true⟩ PointerKind.mouse
    ⟨true, [⟨0, 0, 1⟩, ⟨2, 3, 1⟩], []⟩).2 (by decide)
  rw [h.2.2]
  decide

/-- A touch event leaves the whole capture state untouched. -/
theorem step_touch (cfg : Config) (e : PointerEvent) (s : CanvasState)
    (h : e.kind = PointerKind.touch) : step cfg e s = s := by
  cases e with
  | down pk p =>
      simp only [PointerEvent.kind] at h
      simp [step, handlePointerDown, h]
  | move pk ps =>
      simp only [PointerEvent.kind] at h
      simp [step, handlePointerMove, h]
  | up pk =>
      simp only [PointerEvent.kind] at h
      simp [step, handlePointerUp, h]

/-- Claim C5: touch-class events never create, extend or commit a stroke,
whatever `drawingEnabled` is: a run of any event sequence equals the run
of that sequence with every touch event erased. -/
theorem c5_touch_ignored (es : List (Config × PointerEvent)) :
    ∀ s : CanvasState,
      run es s = run (es.filter fun ce => decide (ce.2.kind ≠ PointerKind.touch)) s := by
  induction es with
  | nil =>
      intro s
      rfl
  | cons ce rest ih =>
      intro s
      by_cases h : ce.2.kind = PointerKind.touch
      · have h1 : run (ce :: rest) s = run rest (step ce.1 ce.2 s) := rfl
        rw [h1, step_touch ce.1 ce.2 s h, ih s]
        simp [List.filter_cons, h]
      · have h1 : run (ce :: rest) s = run rest (step ce.1 ce.2 s) := rfl
        rw [h1, ih (step ce.1 ce.2 s)]
        simp only [List.filter_cons, h, decide_not]
        simp [h]
        rfl

/-- Claim C7: any single event either leaves the external stroke list
unchanged or replaces it by the same list with exactly one new stroke
appended at the end (all earlier strokes kept, unchanged, in order). -/
theorem c7_commit_appends (cfg : Config) (e : PointerEvent) (s : CanvasState) :
    (step cfg e s).strokes = s.strokes ∨
    (step cfg e s).strokes = s.strokes ++ [commitStroke cfg s] := by
  cases e with
  | down pk p =>
      left
      simp only [step, handlePointerDown]
      by_cases h1 : cfg.isDrawingEnabled
      · by_cases h2 : pk = PointerKind.touch <;> simp [h1, h2]
      · simp [h1]
  | move pk ps =>
      left
      simp only [step, handlePointerMove]
      split
      · rfl
      · split
        · rfl
        · rfl
  | up pk =>
      simp only [step, handlePointerUp]
      by_cases h1 : pk = PointerKind.touch
      · left
        simp [h1]
      · by_cases h2 : s.isDrawing ∧ cfg.isDrawingEnabled ∧ s.points.length > 1
        · right
          simp [h1, h2]
        · left
          simp [h1, h2]

/-- Claim C10: with the raster surface unavailable, `getDataURL` returns
the empty string rather than raising, and `clear` still replaces any
prior stroke list with the empty list. -/
theorem c10_unmounted_export (prior : List DrawingStroke) :
    getDataURL none = "" ∧ clearStrokes prior = [] :=
  ⟨rfl, rfl⟩

/-- Pointwise-equal functions map lists equally. -/
theorem mapCongrMem {α β : Type} (f g : α → β) :
    ∀ l : List α, (∀ x ∈ l, f x = g x) → l.map f = l.map g := by
  intro l
  induction l with
  | nil => intro _; rfl
  | cons a rest ih =>
      intro h
      rw [List.map_cons, List.map_cons, h a (List.mem_cons_self a rest),
        ih (fun x hx => h x (List.mem_cons_of_mem a hx))]

/-- Modelled from the spec's per-tool paint table (§4.3): pen at opacity
1.0, normal compositing, width = stroke width × current point's pressure
(fallback 1.0); pencil at 0.8, normal, fixed stroke width; highlighter at
0.3, normal, fixed stroke width; eraser at 1.0, destructive, fixed stroke
width — one entry per segment of a renderable stroke. -/
def specSegParams (s : DrawingStroke) : List SegPaint :=
  match s.points with
  | _ :: p1 :: rest =>
    (p1 :: rest).map fun p =>
      match s.tool with
      | ToolType.pen =>
          { alpha := 1, comp := CompOp.sourceOver,
            lineWidth := s.width * jsOrQ p.pressure 1,
            strokeStyle := s.color, x := p.x, y := p.y }
      | ToolType.pencil =>
          { alpha := 8/10, comp := CompOp.sourceOver, lineWidth := s.width,
            strokeStyle := s.color, x := p.x, y := p.y }
      | ToolType.highlighter =>
          { alpha := 3/10, comp := CompOp.sourceOver, lineWidth := s.width,
            strokeStyle := s.color, x := p.x, y := p.y }
      | ToolType.eraser =>
          { alpha := 1, comp := CompOp.destinationOut, lineWidth := s.width,
            strokeStyle := s.color, x := p.x, y := p.y }
  | _ => []

/-- From a normal-opaque context, a stroke of positive width paints
exactly the spec table's parameters. -/
theorem drawStrokeSegs_spec (s : DrawingStroke) (hw : 0 < s.width) :
    drawStrokeSegs s 1 CompOp.sourceOver = specSegParams s := by
  rcases s with ⟨pts, col, w, t⟩
  have hw' : w ≠ 0 := by
    intro h
    rw [h] at hw
    exact lt_irrefl 0 hw
  cases pts with
  | nil => rfl
  | cons p0 rest =>
      cases rest with
      | nil => rfl
      | cons p1 r2 =>
          cases t <;>
            simp [drawStrokeSegs, specSegParams, strokeEntryAlpha, strokeComp,
              strokeSegWidth, jsOrQ, hw']

/-- Claim C6: a full repaint of the committed stroke list (no in-progress
stroke) from a normal-opaque context paints every renderable stroke with
exactly the spec table's per-tool opacity, compositing mode and width
rule, in list order. -/
theorem c6_full_repaint (strokes : List DrawingStroke) (pts : List Point)
    (t : ToolType) (col : String) (w : ℚ) (c : CtxState)
    (h1 : c.alpha = 1) (h2 : c.comp = CompOp.sourceOver)
    (hw : ∀ s ∈ strokes, 0 < s.width) :
    segPaints (redraw strokes false pts t col w) c =
      strokes.flatMap specSegParams := by
  have hcong : ∀ l : List DrawingStroke, (∀ s ∈ l, 0 < s.width) →
      l.flatMap (fun s => drawStrokeSegs s 1 CompOp.sourceOver) =
        l.flatMap specSegParams := by
    intro l
    induction l with
    | nil => intro _; rfl
    | cons a rest ih =>
        intro hl
        rw [List.flatMap_cons, List.flatMap_cons,
          drawStrokeSegs_spec a (hl a (List.mem_cons_self a rest)),
          ih (fun x hx => hl x (List.mem_cons_of_mem a hx))]
  have e0 : redraw strokes false pts t col w =
      CanvasOp.clearRect :: strokes.flatMap drawStroke := by
    simp [redraw]
  unfold segPaints
  rw [e0]
  have e1 : renderOps (CanvasOp.clearRect :: strokes.flatMap drawStroke) ([], c) =
      renderOps (strokes.flatMap drawStroke) ([], c) := rfl
  rw [e1, renderOps_strokes, paintFold_surface strokes [] c h1 h2]
  rw [List.nil_append]
  exact hcong strokes hw

theorem c6_full_repaint_witness :
    segPaints (redraw [(⟨[⟨0, 0, 1⟩, ⟨1, 1, 1⟩], "#123", 4, ToolType.pencil⟩ : DrawingStroke)]
          false [] ToolType.pen "#fff" 3)
        ⟨1, CompOp.sourceOver, 1, ""⟩ =
      [⟨8/10, CompOp.sourceOver, 4, "#123", 1, 1⟩] := by
  have h := c6_full_repaint [(⟨[⟨0, 0, 1⟩, ⟨1, 1, 1⟩], "#123", 4, ToolType.pencil⟩ : DrawingStroke)]
    [] ToolType.pen "#fff" 3 ⟨1, CompOp.sourceOver, 1, ""⟩ rfl rfl (by decide)
  rw [h]
  rfl

/-- `drawStrokeSegs` is a map over the tail of the point list. -/
theorem drawStrokeSegs_eq_tail (pts : List Point) (col : String) (W : ℚ)
    (t : ToolType) (a : ℚ) (m : CompOp) :
    drawStrokeSegs ⟨pts, col, W, t⟩ a m =
      pts.tail.map (fun p =>
        (⟨strokeEntryAlpha t a, strokeComp t m, strokeSegWidth t W p,
          col, p.x, p.y⟩ : SegPaint)) := by
  cases pts with
  | nil => rfl
  | cons p0 rest =>
      cases rest with
      | nil => rfl
      | cons p1 r2 => rfl

/-- Claim C9: a pen point reporting pressure exactly 0 falls back to
pressure 1 in both the full-repaint and the incremental path, so it is
rendered at the full base width and a pen segment's width is never zero
because of pressure. -/
theorem c9_pressure_zero_fallback (c : CtxState) (col : String) (w : ℚ)
    (lp : Point) (x y : ℚ) :
    segPaints (drawStroke ⟨[lp, ⟨x, y, 0⟩], col, w, ToolType.pen⟩) c =
      segPaints (drawStroke ⟨[lp, ⟨x, y, 1⟩], col, w, ToolType.pen⟩) c ∧
    incrementalOps ToolType.pen col w [lp, ⟨x, y, 0⟩] =
      incrementalOps ToolType.pen col w [lp, ⟨x, y, 1⟩] ∧
    (∀ sp ∈ segPaints (drawStroke ⟨[lp, ⟨x, y, 0⟩], col, w, ToolType.pen⟩) c,
      sp.lineWidth ≠ 0) ∧
    (w ≠ 0 →
      ∀ sp ∈ segPaints (incrementalOps ToolType.pen col w [lp, ⟨x, y, 0⟩]) c,
        sp.lineWidth ≠ 0) := by
  have hfull : ∀ pr : ℚ,
      segPaints (drawStroke ⟨[lp, ⟨x, y, pr⟩], col, w, ToolType.pen⟩) c =
        [(⟨1, c.comp, jsOrQ w 3 * jsOrQ pr 1, col, x, y⟩ : SegPaint)] := by
    intro pr
    unfold segPaints
    rw [drawStroke_render]
    rw [drawStrokeSegs_eq_tail]
    rfl
  have hincr : ∀ pr : ℚ,
      segPaints (incrementalOps ToolType.pen col w [lp, ⟨x, y, pr⟩]) c =
        [(⟨1, c.comp, w * jsOrQ pr 1, col, x, y⟩ : SegPaint)] := by
    intro pr
    unfold segPaints incrementalOps
    have hz : ([lp, (⟨x, y, pr⟩ : Point)].zip [lp, (⟨x, y, pr⟩ : Point)].tail) =
        [(lp, (⟨x, y, pr⟩ : Point))] := rfl
    rw [hz]
    have hf : ([(lp, (⟨x, y, pr⟩ : Point))].flatMap fun q =>
        incrementalSegOps ToolType.pen col w q.1 q.2) =
        incrementalSegOps ToolType.pen col w lp ⟨x, y, pr⟩ := by
      simp
    rw [hf, incrementalSegOps_render]
    rfl
  refine ⟨?_, ?_, ?_, ?_⟩
  · rw [hfull 0, hfull 1]
    rfl
  · rfl
  · intro sp hsp
    rw [hfull 0] at hsp
    rw [List.mem_singleton] at hsp
    rw [hsp]
    by_cases hw : w = 0 <;> simp [jsOrQ, hw]
  · intro hw sp hsp
    rw [hincr 0] at hsp
    rw [List.mem_singleton] at hsp
    rw [hsp]
    simp [jsOrQ, hw]

theorem c9_pressure_zero_fallback_witness :
    segPaints (drawStroke ⟨[⟨0, 0, 1⟩, ⟨1, 1, 0⟩], "#000", 3, ToolType.pen⟩)
        ⟨1, CompOp.sourceOver, 1, ""⟩ =
      segPaints (drawStroke ⟨[⟨0, 0, 1⟩, ⟨1, 1, 1⟩], "#000", 3, ToolType.pen⟩)
        ⟨1, CompOp.sourceOver, 1, ""⟩ ∧
    (∀ sp ∈ segPaints (incrementalOps ToolType.pen "#000" 3 [⟨0, 0, 1⟩, ⟨1, 1, 0⟩])
        ⟨1, CompOp.sourceOver, 1, ""⟩, sp.lineWidth ≠ 0) := by
  have h := c9_pressure_zero_fallback ⟨1, CompOp.sourceOver, 1, ""⟩ "#000" 3 ⟨0, 0, 1⟩ 1 1
  exact ⟨h.1, h.2.2.2 (by decide)⟩

/-- Claim C2 counterexample: a pencil stroke at configured width 5 is
painted with line width 2 by the incremental path (hard-coded pencil
width) but with line width 5 by the full repaint of the same committed
stroke — the two modes do not apply the same width rule. -/
theorem c2_counterexample :
    (segPaints (incrementalOps ToolType.pencil "#000" 5 [⟨0, 0, 1⟩, ⟨1, 1, 1⟩])
        ⟨1, CompOp.sourceOver, 1, ""⟩).map SegPaint.lineWidth = [2] ∧
    (segPaints (drawStroke ⟨[⟨0, 0, 1⟩, ⟨1, 1, 1⟩], "#000",
        commitWidth ToolType.pencil 5, ToolType.pencil⟩)
        ⟨1, CompOp.sourceOver, 1, ""⟩).map SegPaint.lineWidth = [5] ∧
    (2 : ℚ) ≠ 5 := by
  refine ⟨rfl, rfl, by decide⟩

/-- Claim C2 (amended): for every tool, the incremental segment paint and
the full repaint of the same captured stroke apply the same opacity,
compositing mode and stroke color to each segment; the line widths also
agree for the pen tool whenever the configured width is nonzero, but for
pencil, highlighter and eraser the incremental path uses hard-coded
widths (2, 20, 30) while the full repaint uses the stroke's stored
width. -/
theorem c2_segment_paint (t : ToolType) (col : String) (w : ℚ)
    (pts : List Point) (c : CtxState)
    (h1 : c.alpha = 1) (h2 : c.comp = CompOp.sourceOver) :
    (segPaints (incrementalOps t col w pts) c).map SegPaint.alpha =
      (segPaints (drawStroke ⟨pts, col, commitWidth t w, t⟩) c).map SegPaint.alpha ∧
    (segPaints (incrementalOps t col w pts) c).map SegPaint.comp =
      (segPaints (drawStroke ⟨pts, col, commitWidth t w, t⟩) c).map SegPaint.comp ∧
    (segPaints (incrementalOps t col w pts) c).map SegPaint.strokeStyle =
      (segPaints (drawStroke ⟨pts, col, commitWidth t w, t⟩) c).map SegPaint.strokeStyle ∧
    (t = ToolType.pen → w ≠ 0 →
      segPaints (incrementalOps t col w pts) c =
        segPaints (drawStroke ⟨pts, col, commitWidth t w, t⟩) c) := by
  have einc : segPaints (incrementalOps t col w pts) c =
      pts.tail.map (fun p =>
        (⟨strokeEntryAlpha t 1, strokeComp t CompOp.sourceOver,
          incrSegWidth t w p, col, p.x, p.y⟩ : SegPaint)) := by
    rw [incrementalOps_segPaints t col w pts c h1 h2]
    exact zip_tail_map_snd (fun p =>
      (⟨strokeEntryAlpha t 1, strokeComp t CompOp.sourceOver,
        incrSegWidth t w p, col, p.x, p.y⟩ : SegPaint)) pts
  have erep : segPaints (drawStroke ⟨pts, col, commitWidth t w, t⟩) c =
      pts.tail.map (fun p =>
        (⟨strokeEntryAlpha t 1, strokeComp t CompOp.sourceOver,
          strokeSegWidth t (commitWidth t w) p, col, p.x, p.y⟩ : SegPaint)) := by
    unfold segPaints
    rw [drawStroke_render, h1, h2, drawStrokeSegs_eq_tail]
    simp
  refine ⟨?_, ?_, ?_, ?_⟩
  · rw [einc, erep, List.map_map, List.map_map]
    rfl
  · rw [einc, erep, List.map_map, List.map_map]
    rfl
  · rw [einc, erep, List.map_map, List.map_map]
    rfl
  · intro ht hw
    subst ht
    rw [einc, erep]
    apply mapCongrMem
    intro p _
    simp [incrSegWidth, strokeSegWidth, commitWidth, jsOrQ, hw]

theorem c2_segment_paint_witness :
    (segPaints (incrementalOps ToolType.eraser "#000" 5 [⟨0, 0, 1⟩, ⟨1, 1, 1⟩])
        ⟨1, CompOp.sourceOver, 1, ""⟩).map SegPaint.comp =
      (segPaints (drawStroke ⟨[⟨0, 0, 1⟩, ⟨1, 1, 1⟩], "#000",
          commitWidth ToolType.eraser 5, ToolType.eraser⟩)
          ⟨1, CompOp.sourceOver, 1, ""⟩).map SegPaint.comp ∧
    segPaints (incrementalOps ToolType.pen "#000" 5 [⟨0, 0, 1⟩, ⟨1, 1, 1/2⟩])
        ⟨1, CompOp.sourceOver, 1, ""⟩ =
      segPaints (drawStroke ⟨[⟨0, 0, 1⟩, ⟨1, 1, 1/2⟩], "#000",
          commitWidth ToolType.pen 5, ToolType.pen⟩)
          ⟨1, CompOp.sourceOver, 1, ""⟩ := by
  refine ⟨(c2_segment_paint ToolType.eraser "#000" 5 [⟨0, 0, 1⟩, ⟨1, 1, 1⟩]
      ⟨1, CompOp.sourceOver, 1, ""⟩ rfl rfl).2.1, ?_⟩
  exact (c2_segment_paint ToolType.pen "#000" 5 [⟨0, 0, 1⟩, ⟨1, 1, 1/2⟩]
      ⟨1, CompOp.sourceOver, 1, ""⟩ rfl rfl).2.2.2 rfl (by decide)

/-- Claim C8: a full repaint is a function of the committed stroke list,
the in-progress buffer and the tool configuration alone; from a
normal-opaque context, repainting twice in a row reproduces the same
surface and context exactly (opacity and compositing having been reset
between strokes). -/
theorem c8_repaint_idempotent (strokes : List DrawingStroke) (b : Bool)
    (pts : List Point) (t : ToolType) (col : String) (w : ℚ)
    (surf₀ : List SegPaint) (c₀ : CtxState)
    (h1 : c₀.alpha = 1) (h2 : c₀.comp = CompOp.sourceOver) :
    renderOps (redraw strokes b pts t col w)
        (renderOps (redraw strokes b pts t col w) (surf₀, c₀)) =
      renderOps (redraw strokes b pts t col w) (surf₀, c₀) := by
  have hnorm : ∀ (l : List DrawingStroke) (c : CtxState),
      c.alpha = 1 → c.comp = CompOp.sourceOver →
      (l.foldl (fun d s => drawStrokeExit s d) c).alpha = 1 ∧
      (l.foldl (fun d s => drawStrokeExit s d) c).comp = CompOp.sourceOver := by
    intro l
    induction l with
    | nil =>
        intro c hc1 hc2
        exact ⟨hc1, hc2⟩
    | cons a rest ih =>
        intro c hc1 hc2
        obtain ⟨e1, e2⟩ := drawStrokeExit_norm a c hc1 hc2
        rw [List.foldl_cons]
        exact ih _ e1 e2
  have e0 : redraw strokes b pts t col w =
      CanvasOp.clearRect ::
        ((strokes ++ (if b ∧ pts.length > 1 then
            [(⟨pts, col, commitWidth t w, t⟩ : DrawingStroke)] else [])).flatMap
          drawStroke) := by
    simp only [redraw, List.flatMap_append]
    split
    · simp
    · simp
  rw [e0]
  have e1 : ∀ acc : List SegPaint × CtxState,
      renderOps (CanvasOp.clearRect ::
          ((strokes ++ (if b ∧ pts.length > 1 then
              [(⟨pts, col, commitWidth t w, t⟩ : DrawingStroke)] else [])).flatMap
            drawStroke)) acc =
        renderOps ((strokes ++ (if b ∧ pts.length > 1 then
            [(⟨pts, col, commitWidth t w, t⟩ : DrawingStroke)] else [])).flatMap
          drawStroke) ([], acc.2) := fun acc => rfl
  rw [e1 (surf₀, c₀), e1 _]
  simp only [renderOps_strokes]
  have hc₁ : (paintFold (strokes ++ (if b ∧ pts.length > 1 then
      [(⟨pts, col, commitWidth t w, t⟩ : DrawingStroke)] else [])) [] c₀).2 =
      (strokes ++ (if b ∧ pts.length > 1 then
        [(⟨pts, col, commitWidth t w, t⟩ : DrawingStroke)] else [])).foldl
        (fun d s => drawStrokeExit s d) c₀ := paintFold_ctx _ [] c₀
  obtain ⟨n1, n2⟩ : (paintFold (strokes ++ (if b ∧ pts.length > 1 then
      [(⟨pts, col, commitWidth t w, t⟩ : DrawingStroke)] else [])) [] c₀).2.alpha = 1 ∧
      (paintFold (strokes ++ (if b ∧ pts.length > 1 then
        [(⟨pts, col, commitWidth t w, t⟩ : DrawingStroke)] else [])) [] c₀).2.comp =
        CompOp.sourceOver := by
    rw [hc₁]
    exact hnorm _ c₀ h1 h2
  apply Prod.ext
  · rw [paintFold_surface _ [] _ n1 n2, paintFold_surface _ [] c₀ h1 h2]
  · rw [paintFold_ctx, paintFold_ctx]
    rcases exitFold_cases (strokes ++ (if b ∧ pts.length > 1 then
        [(⟨pts, col, commitWidth t w, t⟩ : DrawingStroke)] else [])) c₀
        ((strokes ++ (if b ∧ pts.length > 1 then
          [(⟨pts, col, commitWidth t w, t⟩ : DrawingStroke)] else [])).foldl
          (fun d s => drawStrokeExit s d) c₀) with hcase | hcase
    · exact hcase.symm
    · exact hcase.2

theorem c8_repaint_idempotent_witness :
    renderOps (redraw [(⟨[⟨0, 0, 1⟩, ⟨2, 0, 1⟩], "#abc", 6, ToolType.eraser⟩ : DrawingStroke)]
        true [⟨0, 1, 1⟩, ⟨1, 1, 1⟩] ToolType.pen "#def" 4)
        (renderOps (redraw [(⟨[⟨0, 0, 1⟩, ⟨2, 0, 1⟩], "#abc", 6, ToolType.eraser⟩ : DrawingStroke)]
          true [⟨0, 1, 1⟩, ⟨1, 1, 1⟩] ToolType.pen "#def" 4)
          ([], ⟨1, CompOp.sourceOver, 1, ""⟩)) =
      renderOps (redraw [(⟨[⟨0, 0, 1⟩, ⟨2, 0, 1⟩], "#abc", 6, ToolType.eraser⟩ : DrawingStroke)]
        true [⟨0, 1, 1⟩, ⟨1, 1, 1⟩] ToolType.pen "#def" 4)
        ([], ⟨1, CompOp.sourceOver, 1, ""⟩) :=
  c8_repaint_idempotent [(⟨[⟨0, 0, 1⟩, ⟨2, 0, 1⟩], "#abc", 6, ToolType.eraser⟩ : DrawingStroke)]
    true [⟨0, 1, 1⟩, ⟨1, 1, 1⟩] ToolType.pen "#def" 4 [] ⟨1, CompOp.sourceOver, 1, ""⟩ rfl rfl
